import Mathlib

/-!
# Verification of the crossword-leaderboard processor

Shallow embedding of the two variants of the repository
(`src/imagetoleader.py`, the hosted-OCR variant with five patterns, and
`src/unnamed/part_000`, the local-OCR variant with three patterns).

Texts are `List Char`.  Python `re.search` with `re.IGNORECASE` over the
five concrete pattern templates is embedded exactly by a maximal-munch
scanner: every quantified class in the templates (`\s*`, `\s+`, `\d+`) is
followed by a character that the class cannot match (`-`, `=`, `.`, a
digit after whitespace), so greedy matching without backtracking agrees
with Python's backtracking search at every start position, and
`re.search` tries start positions left to right.  Character classes are
modelled over ASCII (Python's `\s`/`\d` additionally match some non-ASCII
characters; no roster pattern or claim depends on those).

Python `float` / `str` on the captured `\d+\.\d+` substrings is a
numeric boundary this embedding does not model faithfully: real
`float` rounds to an IEEE-754 binary64 value (overflowing to infinity
near 1.8e308, without raising), and real `str` is the
shortest-roundtrip repr, which uses scientific notation outside
[1e-4, 1e16).  Here the pair is idealized with exact decimal semantics
(`pyFloat`/`pyStrFloat`).  The idealization agrees with Python on the
only facts the theorems below use: conversion of a `\d+\.\d+` capture
always succeeds (Python's `float` never raises on that shape), and the
conversion is a fixed pure function of the capture.  Which entries
exist, in what order templates are tried, and how conversion failures
propagate are independent of the conversion, so the per-name loop is
additionally stated parametrically in it (`findTimeWith`/`parseWith`)
and those results transfer to the program with its true binary64
conversion.  No theorem below asserts the spelling of a stored value.
-/

/-- ASCII lowercase of a character; models `re.IGNORECASE` comparison for
the ASCII letters appearing in the roster patterns. -/
def lowerChar (c : Char) : Char :=
  if 'A' ≤ c ∧ c ≤ 'Z' then Char.ofNat (c.toNat + 32) else c

/-- The characters matched by the regex class `\s` (ASCII part). -/
def isWsChar (c : Char) : Bool :=
  c = ' ' || c = '\t' || c = '\n' || c = '\r' || c = '\x0b' || c = '\x0c'

/-- The characters matched by the regex class `\d` (ASCII part). -/
def isDigitChar (c : Char) : Bool :=
  '0' ≤ c && c ≤ '9'

/-- One token of a pattern template: a case-insensitive literal
character, `\s*`, or `\s+`.  Every template is a token list followed by
the capturing group `(\d+\.\d+)`. -/
inductive Tok : Type where
  | lit : Char → Tok
  | wsStar : Tok
  | wsPlus : Tok
deriving DecidableEq, Repr

/-- The literal (case-insensitive) tokens spelling a string. -/
def litToks (s : List Char) : List Tok :=
  s.map Tok.lit

/-- Match the token part of a template at the head of the input,
returning the remaining input.  Greedy on `\s*`/`\s+`, which is exact
here because each is followed by a non-whitespace requirement. -/
def matchToksAt : List Tok → List Char → Option (List Char)
  | [], s => some s
  | Tok.lit c :: ts, s =>
    match s with
    | [] => none
    | a :: s1 => if lowerChar a = lowerChar c then matchToksAt ts s1 else none
  | Tok.wsStar :: ts, s => matchToksAt ts (s.dropWhile isWsChar)
  | Tok.wsPlus :: ts, s =>
    match s with
    | [] => none
    | a :: s1 => if isWsChar a then matchToksAt ts (s1.dropWhile isWsChar) else none

/-- Match the capturing group `(\d+\.\d+)` at the head of the input and
return the captured substring. -/
def matchNum (s : List Char) : Option (List Char) :=
  let d1 := s.takeWhile isDigitChar
  if d1 = [] then none
  else
    match s.drop d1.length with
    | '.' :: rest =>
      let d2 := rest.takeWhile isDigitChar
      if d2 = [] then none else some (d1 ++ '.' :: d2)
    | _ => none

/-- Match one whole template (tokens then capture) at the head of the
input; return `group(1)`. -/
def matchAt (toks : List Tok) (s : List Char) : Option (List Char) :=
  (matchToksAt toks s).bind matchNum

/-- `re.search`: try the template at every start position, left to
right; return the capture of the leftmost match. -/
def searchCapture (toks : List Tok) (s : List Char) : Option (List Char) :=
  match matchAt toks s with
  | some cap => some cap
  | none =>
    match s with
    | [] => none
    | _ :: s1 => searchCapture toks s1

/-- Template 1: `{name}:\s*(\d+\.\d+)`. -/
def pat1 (name : List Char) : List Tok :=
  litToks name ++ [Tok.lit ':', Tok.wsStar]

/-- Template 2: `{name}\s*-\s*(\d+\.\d+)`. -/
def pat2 (name : List Char) : List Tok :=
  litToks name ++ [Tok.wsStar, Tok.lit '-', Tok.wsStar]

/-- Template 3: `{name}\s+(\d+\.\d+)`. -/
def pat3 (name : List Char) : List Tok :=
  litToks name ++ [Tok.wsPlus]

/-- Template 4 (hosted-OCR variant only): the regex spelling
name, apostrophe, `s time:`, `\s*`, then the capture. -/
def pat4 (name : List Char) : List Tok :=
  litToks name ++
    [Tok.lit (Char.ofNat 39), Tok.lit 's', Tok.lit ' ', Tok.lit 't',
     Tok.lit 'i', Tok.lit 'm', Tok.lit 'e', Tok.lit ':', Tok.wsStar]

/-- Template 5 (hosted-OCR variant only): `{name}\s*=\s*(\d+\.\d+)`. -/
def pat5 (name : List Char) : List Tok :=
  litToks name ++ [Tok.wsStar, Tok.lit '=', Tok.wsStar]

/-- The ordered template list of the hosted-OCR variant
(`src/imagetoleader.py`, lines 128-134). -/
def patternsExt (name : List Char) : List (List Tok) :=
  [pat1 name, pat2 name, pat3 name, pat4 name, pat5 name]

/-- The ordered template list of the local-OCR variant
(`src/unnamed/part_000`, lines 75-79). -/
def patternsBase (name : List Char) : List (List Tok) :=
  [pat1 name, pat2 name, pat3 name]

/-- The fixed roster of player names. -/
def player_names : List (List Char) :=
  ["Merrick".toList, "Moi".toList, "Sidney".toList, "John".toList,
   "Lauren".toList, "Vy".toList, "Marcus".toList, "Chris".toList,
   "Leslie".toList]

/-- A decimal part never prints as the empty digit string: an all-zero
part collapses to a single `0`. -/
def nonEmptyOr0 (l : List Char) : List Char :=
  if l = [] then ['0'] else l

/-- Drop leading zeros of an integer-part digit string, keeping one
digit (`float("007") = 7.0`). -/
def canonInt (d : List Char) : List Char :=
  nonEmptyOr0 (d.dropWhile (fun c => c = '0'))

/-- Drop trailing zeros of a fraction-part digit string, keeping one
digit (`float("1.50") = 1.5`, `str(3.0) = "3.0"`). -/
def canonFrac (d : List Char) : List Char :=
  nonEmptyOr0 ((d.reverse.dropWhile (fun c => c = '0')).reverse)

/-- Exact-decimal idealization of Python `float(s)` on the strings
reachable here (shape `\d+\.\d+`): the value is represented by its
canonical integer and fraction digit strings; any other shape is a
`ValueError`, modelled as `none`.  Deliberately not binary64: there is
no rounding to 53-bit precision and no overflow to infinity (in Python
a capture worth more than about 1.8e308 converts to `inf`, not an
error).  The claim theorems rely only on conversion success and purity
of this function, never on the converted value. -/
def pyFloat (s : List Char) : Option (List Char × List Char) :=
  let d1 := s.takeWhile isDigitChar
  if d1 = [] then none
  else
    match s.drop d1.length with
    | '.' :: rest =>
      if rest = [] then none
      else if rest.all isDigitChar then some (canonInt d1, canonFrac rest)
      else none
    | _ => none

/-- Idealized Python `str` of a float value: the plain canonical
decimal spelling, always with a decimal point.  Real `str` is the
shortest decimal that round-trips through the binary64 value and
switches to scientific notation outside [1e-4, 1e16) (for example
`str(float("0.00001"))` is `"1e-05"`), so this function is faithful
only as some fixed pure conversion, not as the exact spelling; no
claim theorem depends on its output. -/
def pyStrFloat (v : List Char × List Char) : List Char :=
  v.1 ++ '.' :: v.2

/-- Per-name loop body of the hosted-OCR `parse_leaderboard_data`
(lines 136-146): try the templates in order; on the first regex match,
convert the capture with `float`; on `ValueError` fall through to the
next template (`continue`); stop at the first success (`break`). -/
def findTimeExt : List (List Tok) → List Char → Option (List Char)
  | [], _ => none
  | p :: ps, text =>
    match searchCapture p text with
    | none => findTimeExt ps text
    | some cap =>
      match pyFloat cap with
      | some v => some (pyStrFloat v)
      | none => findTimeExt ps text

/-- Per-name loop body of the local-OCR `parse_leaderboard_data`
(lines 81-87 of `src/unnamed/part_000`): same, but with no
`try/except ValueError`, so a failed conversion raises out of the whole
call (`Except.error`). -/
def findTimeBase : List (List Tok) → List Char → Except Unit (Option (List Char))
  | [], _ => Except.ok none
  | p :: ps, text =>
    match searchCapture p text with
    | none => findTimeBase ps text
    | some cap =>
      match pyFloat cap with
      | some v => Except.ok (some (pyStrFloat v))
      | none => Except.error ()

/-- `parse_leaderboard_data` of the hosted-OCR variant: the returned
dict, as an association list in roster (= insertion) order. -/
def parse_leaderboard_data (text : List Char) : List (List Char × List Char) :=
  player_names.filterMap fun name =>
    (findTimeExt (patternsExt name) text).map fun t => (name, t)

/-- The per-name loop of the hosted-OCR parse, parametric in the
conversion applied to the capture (`str(float(·))` in the source;
`some` = stored string, `none` = `ValueError`).  The loop structure —
ordered templates, first match decides, fall-through on conversion
failure — is independent of the conversion, so theorems about this
function hold for Python's true binary64 conversion as well. -/
def findTimeWith (conv : List Char → Option (List Char)) :
    List (List Tok) → List Char → Option (List Char)
  | [], _ => none
  | p :: ps, text =>
    match searchCapture p text with
    | none => findTimeWith conv ps text
    | some cap =>
      match conv cap with
      | some v => some v
      | none => findTimeWith conv ps text

/-- The hosted-OCR parse, parametric in the capture conversion. -/
def parseWith (conv : List Char → Option (List Char)) (text : List Char) :
    List (List Char × List Char) :=
  player_names.filterMap fun name =>
    (findTimeWith conv (patternsExt name) text).map fun t => (name, t)

/-- The conversion the idealized embedding plugs into the loop. -/
def idealConv (cap : List Char) : Option (List Char) :=
  (pyFloat cap).map pyStrFloat

/-- Roster loop of the local-OCR variant, propagating an uncaught
`ValueError`. -/
def parseBaseAux : List (List Char) → List Char → Except Unit (List (List Char × List Char))
  | [], _ => Except.ok []
  | n :: ns, text =>
    match findTimeBase (patternsBase n) text with
    | Except.error e => Except.error e
    | Except.ok none => parseBaseAux ns text
    | Except.ok (some t) => (parseBaseAux ns text).map fun m => (n, t) :: m

/-- `parse_leaderboard_data` of the local-OCR variant. -/
def parse_leaderboard_data_base (text : List Char) : Except Unit (List (List Char × List Char)) :=
  parseBaseAux player_names text

/-- Dictionary lookup (`data.get(name)`) on the association-list model. -/
def lookupKey (k : List Char) : List (List Char × List Char) → Option (List Char)
  | [] => none
  | (k1, v) :: rest => if k1 = k then some v else lookupKey k rest

example : parse_leaderboard_data "Merrick: 3.50".toList =
    [("Merrick".toList, "3.5".toList)] := by decide

example : parse_leaderboard_data "Leaderboard Merrick - 1.23 Vy = 4.56".toList =
    [("Merrick".toList, "1.23".toList), ("Vy".toList, "4.56".toList)] := by decide

example : parse_leaderboard_data "nobody here 1.23".toList = [] := by decide

example : parse_leaderboard_data "MOI = 07.10".toList =
    [("Moi".toList, "7.1".toList)] := by decide

/-- Case-insensitive prefix test (one start position of a literal
search). -/
def startsWithCI : List Char → List Char → Bool
  | [], _ => true
  | _ :: _, [] => false
  | p :: ps, c :: cs => (lowerChar c = lowerChar p) && startsWithCI ps cs

/-- Case-insensitive substring test: the roster name occurs somewhere in
the text. -/
def containsCI (pat : List Char) (s : List Char) : Bool :=
  startsWithCI pat s ||
    match s with
    | [] => false
    | _ :: s1 => containsCI pat s1

/-- `get_next_id` (`src/imagetoleader.py`, lines 150-161): given the
response of the `select id, order desc, limit 1` query — a row list on
success, an exception otherwise — return first id + 1, or 1 when the
row list is empty or the query failed. -/
def get_next_id (resp : Except Unit (List Nat)) : Nat :=
  match resp with
  | Except.error _ => 1
  | Except.ok [] => 1
  | Except.ok (row :: _) => row + 1

/-- Store-side semantics of the query issued by `get_next_id`: the
external table, as its list of ids, ordered descending and truncated to
one row.  (The store itself is an external collaborator; this is its
contract from the spec.) -/
def selectIdDescLimit1 (ids : List Nat) : List Nat :=
  (List.insertionSort (fun a b => b ≤ a) ids).take 1

/-- The record dict built by `update_database` (lines 170-178): the
`id` (serialized with `str`), `date` and `created_at` fields, then one
field per player present in the extracted-times dict. -/
def buildRecord (next_id : Nat) (date created_at : List Char)
    (data : List (List Char × List Char)) : List (List Char × List Char) :=
  ("id".toList, Nat.toDigits 10 next_id) ::
  ("date".toList, date) ::
  ("created_at".toList, created_at) :: data

/-- `update_database` (lines 163-190): compute the next id, build the
record, run the insert (whose response — row list or exception — is the
external store's behaviour, passed as a function of the record); a
non-empty response yields `(True, next_id)`, an empty response
`(False, None)`, and any exception is caught and yields `(False, None)`. -/
def update_database {α : Type} (nextIdResp : Except Unit (List Nat))
    (ins : List (List Char × List Char) → Except Unit (List α))
    (data : List (List Char × List Char)) (date created_at : List Char) :
    Bool × Option Nat :=
  let next_id := get_next_id nextIdResp
  match ins (buildRecord next_id date created_at data) with
  | Except.error _ => (false, none)
  | Except.ok [] => (false, none)
  | Except.ok (_ :: _) => (true, some next_id)

/-- The decoded OCR.space HTTP response: status code, provider exit
code, and the `ParsedText` of each returned page, in order. -/
structure OcrResponse : Type where
  status_code : Nat
  exitCode : Int
  parsedResults : List (List Char)

/-- `extract_text_from_image_ocrspace` (`src/imagetoleader.py`, lines
66-114): empty string when the API key is missing; the POST outcome
(response or exception) is the provider's behaviour, passed in.  Any
exception, a non-200 status, or an exit code other than 1 yields the
empty string; on success the pages are concatenated in order with no
separator. -/
def extract_text_from_image_ocrspace (apiKeyPresent : Bool)
    (post : Except Unit OcrResponse) : List Char :=
  if !apiKeyPresent then []
  else
    match post with
    | Except.error _ => []
    | Except.ok r =>
      if r.status_code ≠ 200 then []
      else if r.exitCode ≠ 1 then []
      else r.parsedResults.foldl (fun acc page => acc ++ page) []

example : get_next_id (Except.ok (selectIdDescLimit1 [2, 5, 3])) = 6 := by decide

example : extract_text_from_image_ocrspace true
    (Except.ok ⟨200, 1, ["ab".toList, "cd".toList]⟩) = "abcd".toList := by decide

instance : IsTotal ℕ fun a b => b ≤ a :=
  ⟨fun a b => le_total b a⟩

instance : IsTrans ℕ fun a b => b ≤ a :=
  ⟨fun _ _ _ h1 h2 => le_trans h2 h1⟩

/-! ## Shape of regex captures -/

/-- Every capture produced by `matchNum` is digits, a dot, digits. -/
theorem matchNum_shape {s cap : List Char} (h : matchNum s = some cap) :
    ∃ d1 d2, cap = d1 ++ '.' :: d2 ∧ d1 ≠ [] ∧ d2 ≠ [] ∧
      d1.all isDigitChar = true ∧ d2.all isDigitChar = true := by
  simp only [matchNum] at h
  split at h
  · exact absurd h (by simp)
  · split at h
    · split at h
      · exact absurd h (by simp)
      · refine ⟨_, _, (Option.some.inj h).symm, ?_, ?_,
          List.all_takeWhile, List.all_takeWhile⟩ <;> assumption
    · exact absurd h (by simp)

/-- Every capture produced by `matchAt` is digits, a dot, digits. -/
theorem matchAt_shape {toks : List Tok} {s cap : List Char}
    (h : matchAt toks s = some cap) :
    ∃ d1 d2, cap = d1 ++ '.' :: d2 ∧ d1 ≠ [] ∧ d2 ≠ [] ∧
      d1.all isDigitChar = true ∧ d2.all isDigitChar = true := by
  unfold matchAt at h
  cases hm : matchToksAt toks s with
  | none => rw [hm] at h; exact absurd h (by simp)
  | some r =>
    rw [hm, Option.some_bind] at h
    exact matchNum_shape h

/-- Every capture produced by `searchCapture` is digits, a dot, digits. -/
theorem searchCapture_shape {toks : List Tok} {s cap : List Char}
    (h : searchCapture toks s = some cap) :
    ∃ d1 d2, cap = d1 ++ '.' :: d2 ∧ d1 ≠ [] ∧ d2 ≠ [] ∧
      d1.all isDigitChar = true ∧ d2.all isDigitChar = true := by
  induction s with
  | nil =>
    rw [searchCapture] at h
    cases hm : matchAt toks [] with
    | none => rw [hm] at h; exact absurd h (by simp)
    | some c => rw [hm] at h; exact (Option.some.inj h) ▸ matchAt_shape hm
  | cons a s1 ih =>
    rw [searchCapture] at h
    cases hm : matchAt toks (a :: s1) with
    | none => rw [hm] at h; exact ih h
    | some c => rw [hm] at h; exact (Option.some.inj h) ▸ matchAt_shape hm

/-! ## Canonical decimal forms -/

theorem nonEmptyOr0_ne_nil (l : List Char) : nonEmptyOr0 l ≠ [] := by
  unfold nonEmptyOr0; split <;> simp_all

theorem nonEmptyOr0_all {l : List Char} (h : l.all isDigitChar = true) :
    (nonEmptyOr0 l).all isDigitChar = true := by
  unfold nonEmptyOr0; split
  · decide
  · exact h

theorem canonInt_ne_nil (d : List Char) : canonInt d ≠ [] :=
  nonEmptyOr0_ne_nil _

theorem canonFrac_ne_nil (d : List Char) : canonFrac d ≠ [] :=
  nonEmptyOr0_ne_nil _

theorem canonInt_all {d : List Char} (h : d.all isDigitChar = true) :
    (canonInt d).all isDigitChar = true := by
  refine nonEmptyOr0_all (List.all_eq_true.mpr fun x hx => ?_)
  exact List.all_eq_true.mp h x ((List.dropWhile_sublist _).subset hx)

theorem canonFrac_all {d : List Char} (h : d.all isDigitChar = true) :
    (canonFrac d).all isDigitChar = true := by
  refine nonEmptyOr0_all (List.all_eq_true.mpr fun x hx => ?_)
  rw [List.mem_reverse] at hx
  have hx2 := (List.dropWhile_sublist _).subset hx
  rw [List.mem_reverse] at hx2
  exact List.all_eq_true.mp h x hx2

/-- The head surviving a `dropWhile` fails the predicate. -/
theorem dropWhile_cons_head {α : Type} {p : α → Bool} :
    ∀ {l : List α} {a : α} {as : List α}, l.dropWhile p = a :: as → p a = false := by
  intro l
  induction l with
  | nil => intro a as h; simp [List.dropWhile] at h
  | cons x xs ih =>
    intro a as h
    by_cases hx : p x
    · rw [List.dropWhile_cons_of_pos hx] at h; exact ih h
    · rw [List.dropWhile_cons_of_neg hx] at h
      cases h
      simpa using hx

theorem canonInt_idem (d : List Char) : canonInt (canonInt d) = canonInt d := by
  unfold canonInt
  cases hdw : d.dropWhile (fun c => decide (c = '0')) with
  | nil => decide
  | cons a as =>
    have ha := dropWhile_cons_head hdw
    simp only [decide_eq_false_iff_not] at ha
    rw [show nonEmptyOr0 (a :: as) = a :: as from if_neg (by simp)]
    rw [List.dropWhile_cons_of_neg (by simp_all)]
    exact if_neg (by simp)

theorem canonFrac_idem (d : List Char) : canonFrac (canonFrac d) = canonFrac d := by
  unfold canonFrac
  cases hdw : d.reverse.dropWhile (fun c => decide (c = '0')) with
  | nil => decide
  | cons a as =>
    have ha := dropWhile_cons_head hdw
    simp only [decide_eq_false_iff_not] at ha
    rw [show nonEmptyOr0 (a :: as).reverse = (a :: as).reverse from if_neg (by simp)]
    rw [List.reverse_reverse, List.dropWhile_cons_of_neg (by simp_all)]
    exact if_neg (by simp)

/-! ## `pyFloat` on captures -/

theorem takeWhile_digits_append {d1 t : List Char} (h : d1.all isDigitChar = true) :
    (d1 ++ '.' :: t).takeWhile isDigitChar = d1 := by
  rw [List.takeWhile_append_of_pos (by simpa using List.all_eq_true.mp h)]
  simp [List.takeWhile_cons, isDigitChar]

/-- `float` succeeds on every regex capture, yielding the canonical
decimal value. -/
theorem pyFloat_capture {d1 d2 : List Char} (h1 : d1 ≠ []) (h2 : d2 ≠ [])
    (ha1 : d1.all isDigitChar = true) (ha2 : d2.all isDigitChar = true) :
    pyFloat (d1 ++ '.' :: d2) = some (canonInt d1, canonFrac d2) := by
  have htake := takeWhile_digits_append (t := d2) ha1
  have hdrop : (d1 ++ '.' :: d2).drop d1.length = '.' :: d2 := List.drop_left d1 _
  simp only [pyFloat, htake, hdrop, if_neg h1]
  simp [h2, ha2]

/-- `str` of a parsed float re-parses to the same float: the canonical
parts are digit strings and canonicalization is idempotent. -/
theorem pyFloat_pyStrFloat {s : List Char} {v : List Char × List Char}
    (h : pyFloat s = some v) : pyFloat (pyStrFloat v) = some v := by
  simp only [pyFloat] at h
  split at h
  · exact absurd h (by simp)
  · split at h
    · split at h
      · exact absurd h (by simp)
      · split at h
        · rename_i hne rest hrest hne2 hall
          have hv := Option.some.inj h
          have hd1 : (s.takeWhile isDigitChar).all isDigitChar = true :=
            List.all_takeWhile
          rw [pyStrFloat, ← hv]
          rw [pyFloat_capture (canonInt_ne_nil _) (canonFrac_ne_nil _)
            (canonInt_all hd1) (canonFrac_all hall)]
          rw [canonInt_idem, canonFrac_idem]
        · exact absurd h (by simp)
    · exact absurd h (by simp)

/-! ## The per-name search loop -/

theorem findTimeExt_append (ps1 ps2 : List (List Tok)) (text : List Char) :
    findTimeExt (ps1 ++ ps2) text =
      match findTimeExt ps1 text with
      | some v => some v
      | none => findTimeExt ps2 text := by
  induction ps1 with
  | nil => simp [findTimeExt]
  | cons p ps ih =>
    cases h1 : searchCapture p text with
    | none => simp [findTimeExt, h1, ih]
    | some cap =>
      cases h2 : pyFloat cap with
      | none => simp [findTimeExt, h1, h2, ih]
      | some f => simp [findTimeExt, h1, h2]

theorem findTimeExt_none_of {ps : List (List Tok)} {text : List Char}
    (h : ∀ p ∈ ps, searchCapture p text = none) : findTimeExt ps text = none := by
  induction ps with
  | nil => rfl
  | cons p ps ih =>
    have h1 := h p (List.mem_cons_self p ps)
    simp only [findTimeExt, h1]
    exact ih fun q hq => h q (List.mem_cons_of_mem p hq)

theorem findTimeExt_some {ps : List (List Tok)} {text v : List Char}
    (h : findTimeExt ps text = some v) :
    ∃ p ∈ ps, ∃ cap f, searchCapture p text = some cap ∧
      pyFloat cap = some f ∧ v = pyStrFloat f := by
  induction ps with
  | nil => exact absurd h (by simp [findTimeExt])
  | cons p ps ih =>
    cases h1 : searchCapture p text with
    | none =>
      simp only [findTimeExt, h1] at h
      obtain ⟨q, hq, rest⟩ := ih h
      exact ⟨q, List.mem_cons_of_mem p hq, rest⟩
    | some cap =>
      cases h2 : pyFloat cap with
      | none =>
        simp only [findTimeExt, h1, h2] at h
        obtain ⟨q, hq, rest⟩ := ih h
        exact ⟨q, List.mem_cons_of_mem p hq, rest⟩
      | some f =>
        simp only [findTimeExt, h1, h2] at h
        exact ⟨p, List.mem_cons_self p ps, cap, f, h1, h2, (Option.some.inj h).symm⟩

theorem findTimeBase_ok (ps : List (List Tok)) (text : List Char) :
    ∃ o, findTimeBase ps text = Except.ok o := by
  induction ps with
  | nil => exact ⟨none, rfl⟩
  | cons p ps ih =>
    cases h1 : searchCapture p text with
    | none =>
      obtain ⟨o, ho⟩ := ih
      exact ⟨o, by simp only [findTimeBase, h1]; exact ho⟩
    | some cap =>
      obtain ⟨d1, d2, hcap, h1n, h2n, ha1, ha2⟩ := searchCapture_shape h1
      have hpf : pyFloat cap = some (canonInt d1, canonFrac d2) := by
        rw [hcap]; exact pyFloat_capture h1n h2n ha1 ha2
      exact ⟨some (pyStrFloat (canonInt d1, canonFrac d2)),
        by simp only [findTimeBase, h1, hpf]⟩

/-! ## The per-name loop, parametric in the conversion -/

theorem findTimeExt_eq_findTimeWith (ps : List (List Tok)) (text : List Char) :
    findTimeExt ps text = findTimeWith idealConv ps text := by
  induction ps with
  | nil => rfl
  | cons p ps ih =>
    cases h1 : searchCapture p text with
    | none => simp [findTimeExt, findTimeWith, h1, ih]
    | some cap =>
      cases h2 : pyFloat cap with
      | none => simp [findTimeExt, findTimeWith, idealConv, h1, h2, ih]
      | some f => simp [findTimeExt, findTimeWith, idealConv, h1, h2]

theorem parse_eq_parseWith (text : List Char) :
    parse_leaderboard_data text = parseWith idealConv text := by
  unfold parse_leaderboard_data parseWith
  simp only [findTimeExt_eq_findTimeWith]

theorem findTimeWith_append (conv : List Char → Option (List Char))
    (ps1 ps2 : List (List Tok)) (text : List Char) :
    findTimeWith conv (ps1 ++ ps2) text =
      match findTimeWith conv ps1 text with
      | some v => some v
      | none => findTimeWith conv ps2 text := by
  induction ps1 with
  | nil => simp [findTimeWith]
  | cons p ps ih =>
    cases h1 : searchCapture p text with
    | none => simp [findTimeWith, h1, ih]
    | some cap =>
      cases h2 : conv cap with
      | none => simp [findTimeWith, h1, h2, ih]
      | some v => simp [findTimeWith, h1, h2]

theorem findTimeWith_none_of (conv : List Char → Option (List Char))
    {ps : List (List Tok)} {text : List Char}
    (h : ∀ p ∈ ps, searchCapture p text = none) :
    findTimeWith conv ps text = none := by
  induction ps with
  | nil => rfl
  | cons p ps ih =>
    have h1 := h p (List.mem_cons_self p ps)
    simp only [findTimeWith, h1]
    exact ih fun q hq => h q (List.mem_cons_of_mem p hq)

/-! ## The roster loop -/

theorem lookupKey_filterMap_not_mem {names : List (List Char)}
    {f : List Char → Option (List Char)} {name : List Char} (h : name ∉ names) :
    lookupKey name (names.filterMap fun n => (f n).map fun t => (n, t)) = none := by
  induction names with
  | nil => rfl
  | cons n ns ih =>
    have hne : ¬(n = name) := fun e => h (e ▸ List.mem_cons_self n ns)
    have hnm : name ∉ ns := fun m => h (List.mem_cons_of_mem n m)
    cases hf : f n with
    | none => simpa [List.filterMap_cons, hf] using ih hnm
    | some t => simp [List.filterMap_cons, hf, lookupKey, hne, ih hnm]

theorem lookupKey_filterMap {names : List (List Char)}
    {f : List Char → Option (List Char)} {name : List Char}
    (hmem : name ∈ names) (hnd : names.Nodup) :
    lookupKey name (names.filterMap fun n => (f n).map fun t => (n, t)) = f name := by
  induction names with
  | nil => cases hmem
  | cons n ns ih =>
    rcases List.mem_cons.mp hmem with rfl | hm
    · have hnin : name ∉ ns := (List.nodup_cons.mp hnd).1
      cases hf : f name with
      | none => simpa [List.filterMap_cons, hf] using lookupKey_filterMap_not_mem hnin
      | some t => simp [List.filterMap_cons, hf, lookupKey]
    · have hne : ¬(n = name) := by
        rintro rfl; exact (List.nodup_cons.mp hnd).1 hm
      cases hf : f n with
      | none => simpa [List.filterMap_cons, hf] using ih hm (List.nodup_cons.mp hnd).2
      | some t =>
        simp [List.filterMap_cons, hf, lookupKey, hne, ih hm (List.nodup_cons.mp hnd).2]

theorem player_names_nodup : player_names.Nodup := by decide

theorem lookupKey_parse (name text : List Char) (h : name ∈ player_names) :
    lookupKey name (parse_leaderboard_data text) =
      findTimeExt (patternsExt name) text :=
  lookupKey_filterMap h player_names_nodup

theorem lookupKey_parseWith (conv : List Char → Option (List Char))
    (name text : List Char) (h : name ∈ player_names) :
    lookupKey name (parseWith conv text) =
      findTimeWith conv (patternsExt name) text :=
  lookupKey_filterMap h player_names_nodup

/-! ## Templates and the roster name they contain -/

theorem litToks_append_ne {n : List Char} {A B : List Tok} (h : A ≠ B) :
    litToks n ++ A ≠ litToks n ++ B :=
  fun e => h (List.append_cancel_left e)

theorem patternsExt_shape {name : List Char} {p : List Tok}
    (hp : p ∈ patternsExt name) : ∃ ts, p = litToks name ++ ts := by
  simp only [patternsExt, List.mem_cons, List.not_mem_nil, or_false] at hp
  rcases hp with rfl | rfl | rfl | rfl | rfl
  exacts [⟨_, rfl⟩, ⟨_, rfl⟩, ⟨_, rfl⟩, ⟨_, rfl⟩, ⟨_, rfl⟩]

theorem matchToksAt_startsWith : ∀ {n : List Char} {ts : List Tok} {s r : List Char},
    matchToksAt (litToks n ++ ts) s = some r → startsWithCI n s = true := by
  intro n
  induction n with
  | nil => intro ts s r _; rfl
  | cons c n1 ih =>
    intro ts s r h
    cases s with
    | nil => simp [litToks, matchToksAt] at h
    | cons a s1 =>
      simp only [litToks, List.map_cons, List.cons_append, matchToksAt] at h
      by_cases hc : lowerChar a = lowerChar c
      · rw [if_pos hc] at h
        simp [startsWithCI, hc, ih h]
      · rw [if_neg hc] at h; cases h

theorem searchCapture_contains {n : List Char} {ts : List Tok} {s cap : List Char}
    (h : searchCapture (litToks n ++ ts) s = some cap) : containsCI n s = true := by
  induction s with
  | nil =>
    rw [searchCapture] at h
    cases hm : matchAt (litToks n ++ ts) [] with
    | none => rw [hm] at h; cases h
    | some c =>
      unfold matchAt at hm
      cases hmt : matchToksAt (litToks n ++ ts) [] with
      | none => rw [hmt] at hm; exact absurd hm (by simp)
      | some r => simp [containsCI, matchToksAt_startsWith hmt]
  | cons a s1 ih =>
    rw [searchCapture] at h
    cases hm : matchAt (litToks n ++ ts) (a :: s1) with
    | none => rw [hm] at h; simp [containsCI, ih h]
    | some c =>
      unfold matchAt at hm
      cases hmt : matchToksAt (litToks n ++ ts) (a :: s1) with
      | none => rw [hmt] at hm; exact absurd hm (by simp)
      | some r => simp [containsCI, matchToksAt_startsWith hmt]

/-! ## Descending sort and the maximum -/

theorem insertionSort_desc_head {ids : List Nat} {m : Nat}
    (h : ids.maximum = some m) :
    ∃ rest, List.insertionSort (fun a b => b ≤ a) ids = m :: rest := by
  have hmem : m ∈ ids := List.maximum_mem h
  have hperm := List.perm_insertionSort (fun a b => b ≤ a) ids
  have hsorted : List.Sorted (fun a b => b ≤ a)
      (List.insertionSort (fun a b => b ≤ a) ids) :=
    List.sorted_insertionSort _ ids
  cases hs : List.insertionSort (fun a b => b ≤ a) ids with
  | nil =>
    rw [hs] at hperm
    exact absurd (hperm.mem_iff.mpr hmem) (List.not_mem_nil m)
  | cons a rest =>
    rw [hs] at hperm hsorted
    have ha_mem : a ∈ ids := hperm.mem_iff.mp (List.mem_cons_self a rest)
    have h1 : a ≤ m := List.le_maximum_of_mem ha_mem h
    have h2 : m ≤ a := by
      rcases List.mem_cons.mp (hperm.mem_iff.mpr hmem) with rfl | hmr
      · exact le_refl m
      · exact List.rel_of_sorted_cons hsorted m hmr
    exact ⟨rest, by rw [le_antisymm h1 h2]⟩

/-! ## Concatenation of OCR pages -/

theorem foldl_append_eq_flatten (l : List (List Char)) (a : List Char) :
    l.foldl (fun acc page => acc ++ page) a = a ++ l.flatten := by
  induction l generalizing a with
  | nil => simp
  | cons x xs ih => simp [List.foldl_cons, ih, List.append_assoc]

/-! ## The claims -/

/-- C2: for each roster name the templates are tried in their listed
order and the first template that matches decides; a capture whose
conversion fails falls through to the remaining templates of that name
instead of aborting the roster, so the name yields no entry only when
no candidate converts.  Stated for every conversion function `conv` —
the program instantiates `conv` with Python str-of-float, whose
binary64 behaviour the embedding does not model — so the conclusion
holds for the program whatever the conversion returns. -/
theorem parse_pattern_order_and_fallthrough
    (conv : List Char → Option (List Char))
    (name text cap : List Char) (ps1 ps2 : List (List Tok)) (p : List Tok)
    (hname : name ∈ player_names)
    (hsplit : patternsExt name = ps1 ++ p :: ps2)
    (hbefore : ∀ q ∈ ps1, searchCapture q text = none)
    (hmatch : searchCapture p text = some cap) :
    lookupKey name (parseWith conv text) =
      match conv cap with
      | some v => some v
      | none => findTimeWith conv ps2 text := by
  rw [lookupKey_parseWith conv name text hname, hsplit, findTimeWith_append,
    findTimeWith_none_of conv hbefore]
  simp only [findTimeWith, hmatch]

/-- C2 witness: in `"Merrick - 2.25"` template 1 does not match and
template 2 is the first that does; with the idealized conversion the
converted capture is stored, and with a conversion that always fails
the result falls through to the remaining three templates. -/
theorem parse_pattern_order_and_fallthrough_witness :
    (lookupKey "Merrick".toList (parseWith idealConv "Merrick - 2.25".toList) =
      match idealConv "2.25".toList with
      | some v => some v
      | none => findTimeWith idealConv [pat3 "Merrick".toList,
          pat4 "Merrick".toList, pat5 "Merrick".toList]
          "Merrick - 2.25".toList) ∧
    (lookupKey "Merrick".toList
        (parseWith (fun _ => none) "Merrick - 2.25".toList) =
      match (fun (_ : List Char) => (none : Option (List Char))) "2.25".toList with
      | some v => some v
      | none => findTimeWith (fun _ => none) [pat3 "Merrick".toList,
          pat4 "Merrick".toList, pat5 "Merrick".toList]
          "Merrick - 2.25".toList) :=
  ⟨parse_pattern_order_and_fallthrough idealConv "Merrick".toList
      "Merrick - 2.25".toList "2.25".toList [pat1 "Merrick".toList]
      [pat3 "Merrick".toList, pat4 "Merrick".toList, pat5 "Merrick".toList]
      (pat2 "Merrick".toList) (by decide) rfl (by decide) (by decide),
   parse_pattern_order_and_fallthrough (fun _ => none) "Merrick".toList
      "Merrick - 2.25".toList "2.25".toList [pat1 "Merrick".toList]
      [pat3 "Merrick".toList, pat4 "Merrick".toList, pat5 "Merrick".toList]
      (pat2 "Merrick".toList) (by decide) rfl (by decide) (by decide)⟩

/-- C4: the keys of the returned mapping always lie in the fixed
nine-name roster, and a text containing no roster name (not even
case-insensitively) parses to the empty mapping — so a name present in
the text but absent from the roster contributes no entry. -/
theorem parse_keys_subset_roster (text : List Char) :
    (∀ nv ∈ parse_leaderboard_data text, nv.1 ∈ player_names) ∧
    ((∀ name ∈ player_names, containsCI name text = false) →
      parse_leaderboard_data text = []) := by
  constructor
  · intro nv h
    obtain ⟨n, hn, hfn⟩ := List.mem_filterMap.mp h
    obtain ⟨t, _, ht⟩ := Option.map_eq_some'.mp hfn
    rw [← ht]
    exact hn
  · intro hnone
    refine List.filterMap_eq_nil_iff.mpr fun n hn => ?_
    rw [findTimeExt_none_of fun p hp => ?_]
    · rfl
    · obtain ⟨ts, rfl⟩ := patternsExt_shape hp
      cases hsc : searchCapture (litToks n ++ ts) text with
      | none => rfl
      | some cap =>
        have := searchCapture_contains hsc
        rw [hnone n hn] at this
        cases this

/-- C4 witness: a text with a number but no roster name parses to the
empty mapping. -/
theorem parse_keys_subset_roster_witness :
    parse_leaderboard_data "hello world 9.99".toList = [] :=
  (parse_keys_subset_roster "hello world 9.99".toList).2 (by decide)

/-- C5: `get_next_id` returns the observed maximum identifier plus one
when a maximum exists, and returns 1 when the table is empty or the
query fails. -/
theorem get_next_id_spec :
    (∀ (ids : List Nat) (m : Nat), ids.maximum = some m →
      get_next_id (Except.ok (selectIdDescLimit1 ids)) = m + 1) ∧
    get_next_id (Except.ok (selectIdDescLimit1 [])) = 1 ∧
    get_next_id (Except.error ()) = 1 := by
  refine ⟨fun ids m h => ?_, rfl, rfl⟩
  obtain ⟨rest, hs⟩ := insertionSort_desc_head h
  unfold selectIdDescLimit1
  rw [hs]
  rfl

/-- C5 witness: table `[2, 5, 3]` makes `get_next_id` return 6. -/
theorem get_next_id_spec_witness :
    get_next_id (Except.ok (selectIdDescLimit1 [2, 5, 3])) = 5 + 1 :=
  get_next_id_spec.1 [2, 5, 3] 5 (by decide)

/-- C6: the record built for insertion has exactly the identifier,
date, and creation-timestamp fields followed by one field per player
present in the supplied times mapping, its identifier field is the
serialized next identifier, and that identifier is positive. -/
theorem buildRecord_fields_and_id (nextIdResp : Except Unit (List Nat))
    (date created_at : List Char) (data : List (List Char × List Char)) :
    (buildRecord (get_next_id nextIdResp) date created_at data).map Prod.fst =
      "id".toList :: "date".toList :: "created_at".toList :: data.map Prod.fst ∧
    lookupKey "id".toList
        (buildRecord (get_next_id nextIdResp) date created_at data) =
      some (Nat.toDigits 10 (get_next_id nextIdResp)) ∧
    1 ≤ get_next_id nextIdResp := by
  refine ⟨by simp [buildRecord], by simp [buildRecord, lookupKey], ?_⟩
  rcases nextIdResp with e | ids
  · exact le_refl 1
  · cases ids with
    | nil => exact le_refl 1
    | cons r t => exact Nat.le_add_left 1 r

/-- C7: the insert operation returns `(false, none)` exactly when the
store returns no data or the call raises, and `(true, next identifier)`
when the store returns data; in all cases `update_database` returns a
pair rather than propagating a fault. -/
theorem update_database_result_spec {α : Type}
    (nextIdResp : Except Unit (List Nat))
    (ins : List (List Char × List Char) → Except Unit (List α))
    (data : List (List Char × List Char)) (date created_at : List Char) :
    (update_database nextIdResp ins data date created_at = (false, none) ↔
      ins (buildRecord (get_next_id nextIdResp) date created_at data) =
        Except.ok [] ∨
      ins (buildRecord (get_next_id nextIdResp) date created_at data) =
        Except.error ()) ∧
    ∀ (x : α) (xs : List α),
      ins (buildRecord (get_next_id nextIdResp) date created_at data) =
        Except.ok (x :: xs) →
      update_database nextIdResp ins data date created_at =
        (true, some (get_next_id nextIdResp)) := by
  cases hr : ins (buildRecord (get_next_id nextIdResp) date created_at data) with
  | error e =>
    cases e
    constructor
    · simp [update_database, hr]
    · intro x xs hx
      exact absurd hx (by simp)
  | ok l =>
    cases l with
    | nil =>
      constructor
      · simp [update_database, hr]
      · intro x xs hx
        exact absurd hx (by simp)
    | cons a as =>
      constructor
      · simp [update_database, hr]
      · intro x xs hx
        simp [update_database, hr]

/-- C7 witness: a store answering one row yields
`(true, next identifier)`. -/
theorem update_database_result_spec_witness :
    update_database (Except.ok [4]) (fun _ => Except.ok [()]) [] [] [] =
      (true, some (get_next_id (Except.ok [4]))) :=
  (update_database_result_spec (Except.ok [4]) (fun _ => Except.ok [()])
    [] [] []).2 () [] rfl

/-- C8: the hosted-API extractor returns the empty string on any
provider-side error — an exception during the call, a non-200 HTTP
status, or an exit code other than 1 — and on success returns the
concatenation of all returned pages in order with no separator. -/
theorem ocrspace_error_empty_and_success_concat :
    (∀ (key : Bool) (e : Unit),
      extract_text_from_image_ocrspace key (Except.error e) = []) ∧
    (∀ (key : Bool) (r : OcrResponse), r.status_code ≠ 200 →
      extract_text_from_image_ocrspace key (Except.ok r) = []) ∧
    (∀ (key : Bool) (r : OcrResponse), r.exitCode ≠ 1 →
      extract_text_from_image_ocrspace key (Except.ok r) = []) ∧
    (∀ r : OcrResponse, r.status_code = 200 → r.exitCode = 1 →
      extract_text_from_image_ocrspace true (Except.ok r) =
        r.parsedResults.flatten) := by
  refine ⟨fun key e => ?_, fun key r h => ?_, fun key r h => ?_,
    fun r h1 h2 => ?_⟩
  · cases key <;> rfl
  · cases key
    · rfl
    · simp [extract_text_from_image_ocrspace, h]
  · cases key
    · rfl
    · simp [extract_text_from_image_ocrspace, h]
  · simp [extract_text_from_image_ocrspace, h1, h2, foldl_append_eq_flatten]

/-- C8 witness: concrete error and success responses. -/
theorem ocrspace_error_empty_and_success_concat_witness :
    extract_text_from_image_ocrspace true
      (Except.ok ⟨404, 1, ["x".toList]⟩) = [] ∧
    extract_text_from_image_ocrspace true (Except.error ()) = [] ∧
    extract_text_from_image_ocrspace true
      (Except.ok ⟨200, 1, ["ab".toList, "cd".toList]⟩) =
      (["ab".toList, "cd".toList] : List (List Char)).flatten :=
  ⟨ocrspace_error_empty_and_success_concat.2.1 true ⟨404, 1, ["x".toList]⟩
      (by decide),
   ocrspace_error_empty_and_success_concat.1 true (),
   ocrspace_error_empty_and_success_concat.2.2.2
      ⟨200, 1, ["ab".toList, "cd".toList]⟩ rfl rfl⟩

/-- C9: `parse_leaderboard_data` is a pure function of the input text
and the fixed roster — two calls on the same text return identical
mappings (no randomness, no input/output in the model). -/
theorem parse_deterministic (text : List Char) :
    parse_leaderboard_data text = parse_leaderboard_data text := rfl

theorem parseBaseAux_ok (names : List (List Char)) (text : List Char) :
    ∃ m, parseBaseAux names text = Except.ok m := by
  induction names with
  | nil => exact ⟨[], rfl⟩
  | cons n ns ih =>
    obtain ⟨o, ho⟩ := findTimeBase_ok (patternsBase n) text
    obtain ⟨m, hm⟩ := ih
    cases o with
    | none => exact ⟨m, by simp only [parseBaseAux, ho, hm]⟩
    | some t =>
      exact ⟨(n, t) :: m, by simp only [parseBaseAux, ho, hm, Except.map]⟩

/-- C10: in the base (local-OCR) variant, whose conversion is not
guarded by `try/except ValueError`, the float conversion never raises:
every regex capture has shape digits-dot-digits and converts, so the
parse is total and returns a mapping for every input text. -/
theorem parse_base_total (text : List Char) :
    ∃ m, parse_leaderboard_data_base text = Except.ok m :=
  parseBaseAux_ok player_names text
